import Mathlib

/-!
# kubebuilder-demo1: the `App` reconciler

A shallow embedding of `internal/controller/app_controller.go` (the `Reconcile`
method of `AppReconciler`, with its helpers `containsString`, `removeString`
and `deleteExternalResources`) and of the `App` type of
`api/v1beta1/app_types.go`.

The client calls made by `Reconcile` (`r.Get`, `r.Update`) are the two fields of
`AppReconciler`; each is an arbitrary function, so every outcome of the API
server (success, NotFound, Conflict, any other failure) is covered.  `Reconcile`
returns, next to the Go pair `(ctrl.Result, error)`, the ordered list of the
calls it made.

The work queue and the worker pool that run `Reconcile` are configured by
`SetupWithManager` but are not part of the source; they are modelled from
sections 4.1, 4.2 and 5 of the specification, as a state machine of atomic
steps.  The TLS options of `cmd/main.go` are embedded as well.
-/

set_option autoImplicit false

namespace KubebuilderDemo1

/-! ## Data model -/

/-- Go `time.Time`, as the two numbers `IsZero` looks at: seconds since
January 1, year 1 00:00:00 UTC, and nanoseconds within the second. -/
structure Time where
  sec : Int
  nsec : Nat
  deriving DecidableEq, Repr

/-- Go `time.Time.IsZero`: `t.sec() == 0 && t.nsec() == 0`. -/
def Time.IsZero (t : Time) : Bool :=
  t.sec == 0 && t.nsec == 0

/-- The method `(*metav1.Time).IsZero` of apimachinery, called on the pointer
field `DeletionTimestamp`: a nil pointer is zero, otherwise the wrapped time
decides. -/
def IsZero : Option Time → Bool
  | none => true
  | some t => t.IsZero

/-- The struct `types.NamespacedName`. -/
structure NamespacedName where
  Namespace : String
  Name : String
  deriving DecidableEq, Repr

/-- The struct `ctrl.Request`. -/
structure Request where
  NamespacedName : NamespacedName
  deriving DecidableEq, Repr

/-- The struct `ctrl.Result`; `RequeueAfter` is a `time.Duration` in
nanoseconds.  The Go zero value `ctrl.Result{}` is the default value. -/
structure Result where
  Requeue : Bool := false
  RequeueAfter : Int := 0
  deriving DecidableEq, Repr

/-- The struct `metav1.TypeMeta`. -/
structure TypeMeta where
  Kind : String
  APIVersion : String
  deriving DecidableEq, Repr

/-- The fields of `metav1.ObjectMeta` that identify, version and gate the
deletion of an object. -/
structure ObjectMeta where
  Name : String
  Namespace : String
  UID : String
  ResourceVersion : String
  Generation : Int
  DeletionTimestamp : Option Time
  Labels : List (String × String)
  Annotations : List (String × String)
  Finalizers : List String
  deriving DecidableEq, Repr

/-- The struct `AppSpec`. -/
structure AppSpec where
  Foo : String
  deriving DecidableEq, Repr

/-- The struct `AppStatus`; it has no field in the source, so it has one
value. -/
inductive AppStatus where
  | mk : AppStatus
  deriving DecidableEq, Repr

/-- The struct `App`. -/
structure App where
  TypeMeta : TypeMeta
  ObjectMeta : ObjectMeta
  Spec : AppSpec
  Status : AppStatus
  deriving DecidableEq, Repr

/-- The errors a client call or the cleanup hook can return, by the only
distinctions the callers draw: the API status reasons NotFound and Conflict,
and everything else. -/
inductive Error where
  | notFound : Error
  | conflict : Error
  | other (msg : String) : Error
  deriving DecidableEq, Repr

/-- The function `client.IgnoreNotFound`: nil for a NotFound error, the error
itself otherwise. -/
def IgnoreNotFound : Error → Option Error
  | Error.notFound => none
  | err => some err

/-- The struct `AppReconciler`, by the two methods of its embedded
`client.Client` that `Reconcile` calls.  `Get` returns the fetched object or an
error; `Update` returns nil (`none`) or an error. -/
structure AppReconciler where
  Get : NamespacedName → Except Error App
  Update : App → Option Error

/-- One call made by `Reconcile`, with its argument. -/
inductive Action where
  | get (key : NamespacedName) : Action
  | cleanup (app : App) : Action
  | update (app : App) : Action
  deriving DecidableEq, Repr

/-- What one run of `Reconcile` returns and does: the Go return pair
`(result, err)` and the calls made, in order. -/
structure Outcome where
  result : Result
  err : Option Error
  trace : List Action
  deriving DecidableEq, Repr

/-! ## The helpers -/

/-- The function `containsString`: scan the slice, return true at the first item
equal to `s`, false when the scan ends. -/
def containsString : List String → String → Bool
  | [], _ => false
  | item :: rest, s => if item == s then true else containsString rest s

/-- The loop of `removeString`, started with `result` as accumulated so far:
an item equal to `s` is skipped (`continue`), any other is appended. -/
def removeStringLoop (s : String) : List String → List String → List String
  | result, [] => result
  | result, item :: rest =>
    if item == s then removeStringLoop s result rest
    else removeStringLoop s (result ++ [item]) rest

/-- The function `removeString`: the loop run from the nil `result`. -/
def removeString (slice : List String) (s : String) : List String :=
  removeStringLoop s [] slice

/-- The method `deleteExternalResources`: it does nothing and returns nil. -/
def deleteExternalResources (_app : App) : Option Error :=
  none

/-- The local `myFinalizerName` of `Reconcile`. -/
def myFinalizerName : String :=
  "storage.finalizers.tutorial.kubebuilder.io"

/-! ## Reconcile -/

/-- The body of `Reconcile`, with the cleanup hook called at line 109 as the
parameter `cleanup` (its returned error only; the hook of the source does not
change the object).  Each branch returns what the Go `return` at its end
returns, and the calls made up to there. -/
def ReconcileWith (cleanup : App → Option Error) (r : AppReconciler) (req : Request) :
    Outcome :=
  match r.Get req.NamespacedName with
  | Except.error err =>
    { result := {}, err := IgnoreNotFound err, trace := [Action.get req.NamespacedName] }
  | Except.ok app =>
    if IsZero app.ObjectMeta.DeletionTimestamp then
      if !containsString app.ObjectMeta.Finalizers myFinalizerName then
        let app1 : App :=
          { app with ObjectMeta :=
              { app.ObjectMeta with
                Finalizers := app.ObjectMeta.Finalizers ++ [myFinalizerName] } }
        match r.Update app1 with
        | some err =>
          { result := {}, err := some err,
            trace := [Action.get req.NamespacedName, Action.update app1] }
        | none =>
          { result := {}, err := none,
            trace := [Action.get req.NamespacedName, Action.update app1] }
      else
        { result := {}, err := none, trace := [Action.get req.NamespacedName] }
    else
      if containsString app.ObjectMeta.Finalizers myFinalizerName then
        match cleanup app with
        | some err =>
          { result := {}, err := some err,
            trace := [Action.get req.NamespacedName, Action.cleanup app] }
        | none =>
          let app1 : App :=
            { app with ObjectMeta :=
                { app.ObjectMeta with
                  Finalizers := removeString app.ObjectMeta.Finalizers myFinalizerName } }
          match r.Update app1 with
          | some err =>
            { result := {}, err := some err,
              trace := [Action.get req.NamespacedName, Action.cleanup app,
                Action.update app1] }
          | none =>
            { result := {}, err := none,
              trace := [Action.get req.NamespacedName, Action.cleanup app,
                Action.update app1] }
      else
        { result := {}, err := none, trace := [Action.get req.NamespacedName] }

/-- The method `Reconcile` of the source: the body above with the cleanup hook
`deleteExternalResources` of the source. -/
def Reconcile (r : AppReconciler) (req : Request) : Outcome :=
  ReconcileWith deleteExternalResources r req

/-! ## Reading a run -/

/-- The objects handed to `Update` in a run, in order. -/
def updates : List Action → List App
  | [] => []
  | Action.update app :: rest => app :: updates rest
  | _ :: rest => updates rest

/-- The objects handed to the cleanup hook in a run, in order. -/
def cleanups : List Action → List App
  | [] => []
  | Action.cleanup app :: rest => app :: cleanups rest
  | _ :: rest => cleanups rest

/-- The object in the store after a run that fetched `fetched`: the last
object whose `Update` succeeded, or `fetched` when no `Update` succeeded. -/
def storedAfter (r : AppReconciler) (fetched : App) (trace : List Action) : App :=
  ((updates trace).filter (fun w => (r.Update w).isNone)).getLastD fetched

/-- The object `app` with its finalizer list replaced by `fs`, and every other
field (type, identity, resourceVersion, deletionTimestamp, labels,
annotations, spec, status) as in `app`. -/
def withFinalizers (app : App) (fs : List String) : App :=
  { app with ObjectMeta := { app.ObjectMeta with Finalizers := fs } }

/-- The empty `ctrl.Result{}` with a nil error: the run converged. -/
@[reducible] def converged (o : Outcome) : Prop :=
  o.result = {} ∧ o.err = none

/-! ## Sample inputs -/

/-- A request for the object `default/demo`. -/
def sampleReq : Request :=
  { NamespacedName := { Namespace := "default", Name := "demo" } }

/-- The metadata of `default/demo`, live, with the finalizers `fs`. -/
def sampleMeta (fs : List String) : ObjectMeta :=
  { Name := "demo", Namespace := "default", UID := "5f0c", ResourceVersion := "41",
    Generation := 1, DeletionTimestamp := none, Labels := [("tier", "web")],
    Annotations := [], Finalizers := fs }

/-- A live `App` with the finalizers `fs`. -/
def liveApp (fs : List String) : App :=
  { TypeMeta := { Kind := "App", APIVersion := "aloys.aloys.tech/v1beta1" },
    ObjectMeta := sampleMeta fs, Spec := { Foo := "bar" }, Status := AppStatus.mk }

/-- The same `App` marked for deletion (a nonzero deletionTimestamp). -/
def deletingApp (fs : List String) : App :=
  { liveApp fs with ObjectMeta :=
      { sampleMeta fs with DeletionTimestamp := some { sec := 63845000000, nsec := 0 } } }

/-- A client whose `Get` returns `app` and whose `Update` answers `upd`. -/
def clientOf (app : App) (upd : Option Error) : AppReconciler :=
  { Get := fun _ => Except.ok app, Update := fun _ => upd }

/-- A client whose `Get` fails with `e`. -/
def clientFailing (e : Error) : AppReconciler :=
  { Get := fun _ => Except.error e, Update := fun _ => none }

/-! ## The cleanup hook as a step on the object -/

/-- The method `deleteExternalResources` with the object it is handed (a
pointer in the source) passed through: the object after the call and the
returned error.  The body is the single statement `return nil`, so the object
comes back as it went in. -/
def deleteExternalResourcesStep (app : App) : App × Option Error :=
  (app, deleteExternalResources app)

/-- Calling the hook `n` times in a row, each call on the object the previous
call left, stopping at the first error: the object after the last call and the
error of that call (the object itself and nil when no call is made). -/
def cleanupTimes : Nat → App → App × Option Error
  | 0, app => (app, none)
  | n + 1, app =>
    match deleteExternalResourcesStep app with
    | (app1, some err) => (app1, some err)
    | (app1, none) => cleanupTimes n app1

/-! ## The TLS options of `main` -/

/-- The fields of Go `tls.Config` that a TLS option of `main` can be told by;
`NextProtos` is the list of protocols offered in ALPN. -/
structure TLSConfig where
  NextProtos : List String
  ServerName : String
  MinVersion : Nat
  InsecureSkipVerify : Bool
  deriving DecidableEq, Repr

/-- The flag variables of `main`. -/
structure Flags where
  metricsAddr : String
  enableLeaderElection : Bool
  probeAddr : String
  secureMetrics : Bool
  enableHTTP2 : Bool
  deriving DecidableEq, Repr

/-- The default values given to `flag.StringVar` and `flag.BoolVar` in `main`. -/
def defaultFlags : Flags :=
  { metricsAddr := ":8080", enableLeaderElection := false, probeAddr := ":8081",
    secureMetrics := false, enableHTTP2 := false }

/-- The closure `disableHTTP2` of `main`: it sets `c.NextProtos` to the one
protocol `http/1.1` (the log line it writes first is not modelled). -/
def disableHTTP2 (c : TLSConfig) : TLSConfig :=
  { c with NextProtos := ["http/1.1"] }

/-- The slice `tlsOpts` of `main` after lines 95-98: empty at first, and
`disableHTTP2` appended when `enableHTTP2` is false. -/
def tlsOpts (enableHTTP2 : Bool) : List (TLSConfig → TLSConfig) :=
  if !enableHTTP2 then [] ++ [disableHTTP2] else []

/-- The struct `webhook.Options`, by the field `main` sets. -/
structure WebhookOptions where
  TLSOpts : List (TLSConfig → TLSConfig)

/-- The struct `metricsserver.Options`, by the fields `main` sets. -/
structure MetricsOptions where
  BindAddress : String
  SecureServing : Bool
  TLSOpts : List (TLSConfig → TLSConfig)

/-- The options `main` hands to `webhook.NewServer` (line 100). -/
def webhookOptions (f : Flags) : WebhookOptions :=
  { TLSOpts := tlsOpts f.enableHTTP2 }

/-- The `Metrics` options `main` hands to `ctrl.NewManager` (lines 142-146). -/
def metricsOptions (f : Flags) : MetricsOptions :=
  { BindAddress := f.metricsAddr, SecureServing := f.secureMetrics,
    TLSOpts := tlsOpts f.enableHTTP2 }

/-! ## The work queue and the worker pool -/

/-- The option `MaxConcurrentReconciles: 2` that `SetupWithManager` hands to the
controller (line 199): the number of workers. -/
@[reducible] def MaxConcurrentReconciles : Nat := 2

/-- Modelled from the spec: the work queue and the worker pool, which are not
in the source (only `SetupWithManager`, which configures them, is).  The state
named in sections 4.1 and 5 of the spec: the ready identities in queue order,
the identities marked dirty while being processed, the identity each worker
has in flight, and whether the queue is shutting down.  The single mutex that
section 5 requires makes every operation one atomic step on this state. -/
structure WorkQueue where
  ready : List NamespacedName
  dirty : List NamespacedName
  inFlight : Fin MaxConcurrentReconciles → Option NamespacedName
  shuttingDown : Bool

/-- Modelled from the spec: the queue before any event, with every worker
idle. -/
def emptyQueue : WorkQueue :=
  { ready := [], dirty := [], inFlight := fun _ => none, shuttingDown := false }

/-- Modelled from the spec: whether `id` is currently being processed by a
worker. -/
def WorkQueue.processing (q : WorkQueue) (id : NamespacedName) : Bool :=
  (List.finRange MaxConcurrentReconciles).any (fun w => decide (q.inFlight w = some id))

/-- Modelled from the spec: `add(id)` of section 4.1.  A no-op during shutdown;
when `id` is being processed it is marked dirty (once); otherwise it is
enqueued unless it is already queued. -/
def WorkQueue.add (q : WorkQueue) (id : NamespacedName) : WorkQueue :=
  if q.shuttingDown then q
  else if q.processing id then
    if id ∈ q.dirty then q else { q with dirty := q.dirty ++ [id] }
  else
    if id ∈ q.ready then q else { q with ready := q.ready ++ [id] }

/-- Modelled from the spec: `get()` of section 4.1, called by worker `w`.  It
takes the first ready identity, marks it in flight at `w` and removes it from
the ready set, leaving the dirty set alone.  During shutdown (the call returns
the shutdown signal) and while nothing is ready (the worker stays suspended)
the state does not change; neither does it for a worker that still has an
identity in flight, which in the loop of section 4.2 calls `done` first. -/
def WorkQueue.get (q : WorkQueue) (w : Fin MaxConcurrentReconciles) : WorkQueue :=
  if q.shuttingDown then q
  else
    match q.inFlight w with
    | some _ => q
    | none =>
      match q.ready with
      | [] => q
      | id :: rest =>
        { q with ready := rest, inFlight := Function.update q.inFlight w (some id) }

/-- Modelled from the spec: `done(id)` of section 4.1, called by worker `w` on
the identity it has in flight once `reconcile` returned.  An identity marked
dirty during processing goes back to the ready set; otherwise all bookkeeping
for it is cleared. -/
def WorkQueue.done (q : WorkQueue) (w : Fin MaxConcurrentReconciles) : WorkQueue :=
  match q.inFlight w with
  | none => q
  | some id =>
    if id ∈ q.dirty then
      { q with ready := q.ready ++ [id], dirty := q.dirty.erase id,
               inFlight := Function.update q.inFlight w none }
    else
      { q with inFlight := Function.update q.inFlight w none }

/-- Modelled from the spec: the atomic operations on the queue: an event adds
an identity (a requeue, and a delayed `addAfter` when its delay ends, reach the
queue as an `add` as well), a worker of the pool calls `get` or `done` in its
loop of section 4.2, and the shutdown signal arrives. -/
inductive QueueOp where
  | add (id : NamespacedName) : QueueOp
  | get (w : Fin MaxConcurrentReconciles) : QueueOp
  | done (w : Fin MaxConcurrentReconciles) : QueueOp
  | shutDown : QueueOp
  deriving DecidableEq, Repr

/-- Modelled from the spec: one atomic operation applied to the queue. -/
def WorkQueue.step (q : WorkQueue) : QueueOp → WorkQueue
  | QueueOp.add id => q.add id
  | QueueOp.get w => q.get w
  | QueueOp.done w => q.done w
  | QueueOp.shutDown => { q with shuttingDown := true }

/-- Modelled from the spec: an interleaving of operations, applied in order. -/
def runOps (ops : List QueueOp) (q : WorkQueue) : WorkQueue :=
  ops.foldl WorkQueue.step q

/-- Modelled from the spec: the number of workers that have `id` in flight. -/
def inFlightCount (q : WorkQueue) (id : NamespacedName) : Nat :=
  ((List.finRange MaxConcurrentReconciles).filter
    (fun w => decide (q.inFlight w = some id))).length

/-- Modelled from the spec: the number of pending reconciliations of `id`: its
entries in the ready set and its marks in the dirty set. -/
def pending (q : WorkQueue) (id : NamespacedName) : Nat :=
  q.ready.count id + q.dirty.count id

/-- The invariant of the queue: no identity is in flight at two workers, the
ready and the dirty set hold no identity twice, a ready identity is not in
flight, and a dirty identity is in flight. -/
def WorkQueue.Inv (q : WorkQueue) : Prop :=
  (∀ w1 w2 id, q.inFlight w1 = some id → q.inFlight w2 = some id → w1 = w2) ∧
  q.ready.Nodup ∧
  q.dirty.Nodup ∧
  (∀ id, id ∈ q.ready → ∀ w, q.inFlight w ≠ some id) ∧
  (∀ id, id ∈ q.dirty → ∃ w, q.inFlight w = some id)

/-- The key of the sample request. -/
def sampleKey : NamespacedName :=
  { Namespace := "default", Name := "demo" }

/-! ## Lemmas on the helpers -/

theorem containsString_iff (l : List String) (s : String) :
    containsString l s = true ↔ s ∈ l := by
  induction l with
  | nil => simp [containsString]
  | cons a l ih =>
    by_cases h : a = s
    · simp [containsString, h]
    · have h2 : ¬ s = a := fun e => h e.symm
      simp [containsString, h, h2, ih]

theorem containsString_false_iff (l : List String) (s : String) :
    containsString l s = false ↔ s ∉ l := by
  rw [← containsString_iff]; simp

theorem removeStringLoop_eq (s : String) (l result : List String) :
    removeStringLoop s result l = result ++ l.filter (fun x => decide (x ≠ s)) := by
  induction l generalizing result with
  | nil => simp [removeStringLoop]
  | cons a l ih =>
    by_cases h : a = s
    · simp [removeStringLoop, h, ih]
    · simp [removeStringLoop, h, ih]

theorem removeString_eq_filter (l : List String) (s : String) :
    removeString l s = l.filter (fun x => decide (x ≠ s)) := by
  simp [removeString, removeStringLoop_eq]

theorem not_mem_removeString (l : List String) (s : String) :
    s ∉ removeString l s := by
  simp [removeString_eq_filter, List.mem_filter]

/-! ## The branches of `Reconcile` -/

theorem ReconcileWith_get_error (cleanup : App → Option Error) (r : AppReconciler)
    (req : Request) (e : Error) (hget : r.Get req.NamespacedName = Except.error e) :
    ReconcileWith cleanup r req =
      { result := {}, err := IgnoreNotFound e, trace := [Action.get req.NamespacedName] } := by
  simp [ReconcileWith, hget]

theorem ReconcileWith_live_absent (cleanup : App → Option Error) (r : AppReconciler)
    (req : Request) (app : App) (hget : r.Get req.NamespacedName = Except.ok app)
    (hlive : IsZero app.ObjectMeta.DeletionTimestamp = true)
    (habs : myFinalizerName ∉ app.ObjectMeta.Finalizers) :
    ReconcileWith cleanup r req =
      { result := {},
        err := r.Update (withFinalizers app (app.ObjectMeta.Finalizers ++ [myFinalizerName])),
        trace := [Action.get req.NamespacedName,
          Action.update (withFinalizers app (app.ObjectMeta.Finalizers ++ [myFinalizerName]))] } := by
  have hc := (containsString_false_iff _ _).mpr habs
  simp only [ReconcileWith, hget, hlive, hc, withFinalizers]
  cases hu : r.Update
      { app with ObjectMeta :=
          { app.ObjectMeta with
            Finalizers := app.ObjectMeta.Finalizers ++ [myFinalizerName] } } <;> simp

theorem ReconcileWith_live_present (cleanup : App → Option Error) (r : AppReconciler)
    (req : Request) (app : App) (hget : r.Get req.NamespacedName = Except.ok app)
    (hlive : IsZero app.ObjectMeta.DeletionTimestamp = true)
    (hpres : myFinalizerName ∈ app.ObjectMeta.Finalizers) :
    ReconcileWith cleanup r req =
      { result := {}, err := none, trace := [Action.get req.NamespacedName] } := by
  have hc := (containsString_iff _ _).mpr hpres
  simp [ReconcileWith, hget, hlive, hc]

theorem ReconcileWith_deleting_absent (cleanup : App → Option Error) (r : AppReconciler)
    (req : Request) (app : App) (hget : r.Get req.NamespacedName = Except.ok app)
    (hdel : IsZero app.ObjectMeta.DeletionTimestamp = false)
    (habs : myFinalizerName ∉ app.ObjectMeta.Finalizers) :
    ReconcileWith cleanup r req =
      { result := {}, err := none, trace := [Action.get req.NamespacedName] } := by
  have hc := (containsString_false_iff _ _).mpr habs
  simp [ReconcileWith, hget, hdel, hc]

theorem ReconcileWith_deleting_cleanup_failed (cleanup : App → Option Error)
    (r : AppReconciler) (req : Request) (app : App) (e : Error)
    (hget : r.Get req.NamespacedName = Except.ok app)
    (hdel : IsZero app.ObjectMeta.DeletionTimestamp = false)
    (hpres : myFinalizerName ∈ app.ObjectMeta.Finalizers)
    (hfail : cleanup app = some e) :
    ReconcileWith cleanup r req =
      { result := {}, err := some e,
        trace := [Action.get req.NamespacedName, Action.cleanup app] } := by
  have hc := (containsString_iff _ _).mpr hpres
  simp [ReconcileWith, hget, hdel, hc, hfail]

theorem ReconcileWith_deleting_cleanup_ok (cleanup : App → Option Error)
    (r : AppReconciler) (req : Request) (app : App)
    (hget : r.Get req.NamespacedName = Except.ok app)
    (hdel : IsZero app.ObjectMeta.DeletionTimestamp = false)
    (hpres : myFinalizerName ∈ app.ObjectMeta.Finalizers)
    (hok : cleanup app = none) :
    ReconcileWith cleanup r req =
      { result := {},
        err := r.Update (withFinalizers app
          (app.ObjectMeta.Finalizers.filter (fun x => decide (x ≠ myFinalizerName)))),
        trace := [Action.get req.NamespacedName, Action.cleanup app,
          Action.update (withFinalizers app
            (app.ObjectMeta.Finalizers.filter (fun x => decide (x ≠ myFinalizerName))))] } := by
  have hc := (containsString_iff _ _).mpr hpres
  simp only [ReconcileWith, hget, hdel, hc, hok, withFinalizers, removeString_eq_filter]
  cases hu : r.Update
      { app with ObjectMeta :=
          { app.ObjectMeta with
            Finalizers :=
              app.ObjectMeta.Finalizers.filter (fun x => decide (x ≠ myFinalizerName)) } } <;>
    simp

/-- A fetched object is settled when `Reconcile` has nothing to do on it: live
with the token, or marked for deletion without it. -/
theorem ReconcileWith_settled (cleanup : App → Option Error) (r : AppReconciler)
    (req : Request) (app : App) (hget : r.Get req.NamespacedName = Except.ok app)
    (hset : (IsZero app.ObjectMeta.DeletionTimestamp = true ∧
        myFinalizerName ∈ app.ObjectMeta.Finalizers) ∨
      (IsZero app.ObjectMeta.DeletionTimestamp = false ∧
        myFinalizerName ∉ app.ObjectMeta.Finalizers)) :
    ReconcileWith cleanup r req =
      { result := {}, err := none, trace := [Action.get req.NamespacedName] } := by
  rcases hset with ⟨h1, h2⟩ | ⟨h1, h2⟩
  · exact ReconcileWith_live_present cleanup r req app hget h1 h2
  · exact ReconcileWith_deleting_absent cleanup r req app hget h1 h2

/-- Every run of `Reconcile` is one of its five branches. -/
theorem ReconcileWith_cases (cleanup : App → Option Error) (r : AppReconciler)
    (req : Request) :
    (∃ e, r.Get req.NamespacedName = Except.error e ∧
      ReconcileWith cleanup r req =
        { result := {}, err := IgnoreNotFound e,
          trace := [Action.get req.NamespacedName] }) ∨
    (∃ app, r.Get req.NamespacedName = Except.ok app ∧
      IsZero app.ObjectMeta.DeletionTimestamp = true ∧
      myFinalizerName ∉ app.ObjectMeta.Finalizers ∧
      ReconcileWith cleanup r req =
        { result := {},
          err := r.Update
            (withFinalizers app (app.ObjectMeta.Finalizers ++ [myFinalizerName])),
          trace := [Action.get req.NamespacedName,
            Action.update
              (withFinalizers app (app.ObjectMeta.Finalizers ++ [myFinalizerName]))] }) ∨
    (∃ app, r.Get req.NamespacedName = Except.ok app ∧
      ReconcileWith cleanup r req =
        { result := {}, err := none, trace := [Action.get req.NamespacedName] }) ∨
    (∃ app e, r.Get req.NamespacedName = Except.ok app ∧
      IsZero app.ObjectMeta.DeletionTimestamp = false ∧
      myFinalizerName ∈ app.ObjectMeta.Finalizers ∧ cleanup app = some e ∧
      ReconcileWith cleanup r req =
        { result := {}, err := some e,
          trace := [Action.get req.NamespacedName, Action.cleanup app] }) ∨
    (∃ app, r.Get req.NamespacedName = Except.ok app ∧
      IsZero app.ObjectMeta.DeletionTimestamp = false ∧
      myFinalizerName ∈ app.ObjectMeta.Finalizers ∧ cleanup app = none ∧
      ReconcileWith cleanup r req =
        { result := {},
          err := r.Update (withFinalizers app
            (app.ObjectMeta.Finalizers.filter (fun x => decide (x ≠ myFinalizerName)))),
          trace := [Action.get req.NamespacedName, Action.cleanup app,
            Action.update (withFinalizers app
              (app.ObjectMeta.Finalizers.filter
                (fun x => decide (x ≠ myFinalizerName))))] }) := by
  cases hget : r.Get req.NamespacedName with
  | error e => exact Or.inl ⟨e, rfl, ReconcileWith_get_error cleanup r req e hget⟩
  | ok app =>
    cases hz : IsZero app.ObjectMeta.DeletionTimestamp with
    | true =>
      by_cases hm : myFinalizerName ∈ app.ObjectMeta.Finalizers
      · exact Or.inr (Or.inr (Or.inl
          ⟨app, rfl, ReconcileWith_live_present cleanup r req app hget hz hm⟩))
      · exact Or.inr (Or.inl
          ⟨app, rfl, hz, hm, ReconcileWith_live_absent cleanup r req app hget hz hm⟩)
    | false =>
      by_cases hm : myFinalizerName ∈ app.ObjectMeta.Finalizers
      · cases hc : cleanup app with
        | some e =>
          exact Or.inr (Or.inr (Or.inr (Or.inl
            ⟨app, e, rfl, hz, hm, hc,
              ReconcileWith_deleting_cleanup_failed cleanup r req app e hget hz hm hc⟩)))
        | none =>
          exact Or.inr (Or.inr (Or.inr (Or.inr
            ⟨app, rfl, hz, hm, hc,
              ReconcileWith_deleting_cleanup_ok cleanup r req app hget hz hm hc⟩)))
      · exact Or.inr (Or.inr (Or.inl
          ⟨app, rfl, ReconcileWith_deleting_absent cleanup r req app hget hz hm⟩))

theorem storedAfter_get_only (r : AppReconciler) (fetched : App) (key : NamespacedName) :
    storedAfter r fetched [Action.get key] = fetched := by
  simp [storedAfter, updates]

theorem storedAfter_update_ok (r : AppReconciler) (fetched w : App) (pre : List Action)
    (hpre : updates pre = []) (hu : r.Update w = none) :
    storedAfter r fetched (pre ++ [Action.update w]) = w := by
  have h : updates (pre ++ [Action.update w]) = [w] := by
    induction pre with
    | nil => simp [updates]
    | cons a pre ih =>
      cases a with
      | get k => simpa [updates] using ih (by simpa [updates] using hpre)
      | cleanup c => simpa [updates] using ih (by simpa [updates] using hpre)
      | update u => simp [updates] at hpre
  simp [storedAfter, h, hu]

theorem IgnoreNotFound_of_ne (e : Error) (h : e ≠ Error.notFound) :
    IgnoreNotFound e = some e := by
  cases e <;> simp [IgnoreNotFound] at h ⊢

theorem IgnoreNotFound_ne_none (e : Error) (h : IgnoreNotFound e ≠ none) :
    e ≠ Error.notFound := by
  intro he
  subst he
  simp [IgnoreNotFound] at h

/-! ## The invariant of the work queue -/

theorem WorkQueue.processing_iff (q : WorkQueue) (id : NamespacedName) :
    q.processing id = true ↔ ∃ w, q.inFlight w = some id := by
  simp [WorkQueue.processing, List.any_eq_true, List.mem_finRange]

theorem emptyQueue_inv : emptyQueue.Inv := by
  refine ⟨?_, List.nodup_nil, List.nodup_nil, ?_, ?_⟩ <;> simp [emptyQueue]

theorem WorkQueue.add_inv (q : WorkQueue) (id : NamespacedName) (h : q.Inv) :
    (q.add id).Inv := by
  obtain ⟨h1, h2, h3, h4, h5⟩ := h
  unfold WorkQueue.add
  split_ifs with hs hp hd hr
  · exact ⟨h1, h2, h3, h4, h5⟩
  · exact ⟨h1, h2, h3, h4, h5⟩
  · refine ⟨h1, h2, ?_, h4, ?_⟩
    · exact List.Nodup.append h3 (List.nodup_singleton _) (by simpa using hd)
    · intro id1 hmem
      rcases List.mem_append.mp hmem with hm | hm
      · exact h5 id1 hm
      · rw [List.mem_singleton] at hm
        subst hm
        exact (WorkQueue.processing_iff q id1).mp hp
  · exact ⟨h1, h2, h3, h4, h5⟩
  · refine ⟨h1, ?_, h3, ?_, h5⟩
    · exact List.Nodup.append h2 (List.nodup_singleton _) (by simpa using hr)
    · intro id1 hmem w hw
      rcases List.mem_append.mp hmem with hm | hm
      · exact h4 id1 hm w hw
      · rw [List.mem_singleton] at hm
        subst hm
        exact hp ((WorkQueue.processing_iff q id1).mpr ⟨w, hw⟩)

theorem WorkQueue.get_of_ready (q : WorkQueue) (w : Fin MaxConcurrentReconciles)
    (id : NamespacedName) (rest : List NamespacedName) (hs : ¬ q.shuttingDown = true)
    (hw : q.inFlight w = none) (hr : q.ready = id :: rest) :
    q.get w =
      { q with ready := rest, inFlight := Function.update q.inFlight w (some id) } := by
  simp [WorkQueue.get, hs, hw, hr]

theorem WorkQueue.get_of_blocked (q : WorkQueue) (w : Fin MaxConcurrentReconciles)
    (h : q.shuttingDown = true ∨ (∃ x, q.inFlight w = some x) ∨ q.ready = []) :
    q.get w = q := by
  unfold WorkQueue.get
  split_ifs with hs
  · rfl
  · cases hw : q.inFlight w with
    | some x => rfl
    | none =>
      cases hr : q.ready with
      | nil => rfl
      | cons id rest =>
        rcases h with h | ⟨x, h⟩ | h
        · exact absurd h hs
        · rw [hw] at h; cases h
        · rw [hr] at h; cases h

theorem WorkQueue.done_of_busy (q : WorkQueue) (w : Fin MaxConcurrentReconciles)
    (id : NamespacedName) (hw : q.inFlight w = some id) :
    q.done w =
      if id ∈ q.dirty then
        { q with ready := q.ready ++ [id], dirty := q.dirty.erase id,
                 inFlight := Function.update q.inFlight w none }
      else
        { q with inFlight := Function.update q.inFlight w none } := by
  simp [WorkQueue.done, hw]

theorem WorkQueue.done_of_idle (q : WorkQueue) (w : Fin MaxConcurrentReconciles)
    (hw : q.inFlight w = none) : q.done w = q := by
  simp [WorkQueue.done, hw]

theorem WorkQueue.get_inv (q : WorkQueue) (w : Fin MaxConcurrentReconciles) (h : q.Inv) :
    (q.get w).Inv := by
  have hq := h
  obtain ⟨h1, h2, h3, h4, h5⟩ := h
  by_cases hs : q.shuttingDown = true
  · rw [WorkQueue.get_of_blocked q w (Or.inl hs)]; exact hq
  · cases hw : q.inFlight w with
    | some x => rw [WorkQueue.get_of_blocked q w (Or.inr (Or.inl ⟨x, hw⟩))]; exact hq
    | none =>
      cases hr : q.ready with
      | nil => rw [WorkQueue.get_of_blocked q w (Or.inr (Or.inr hr))]; exact hq
      | cons id rest =>
        rw [WorkQueue.get_of_ready q w id rest hs hw hr]
        rw [hr] at h2 h4
        have hhead : ∀ v, q.inFlight v ≠ some id := h4 id (List.mem_cons_self _ _)
        have hnot : id ∉ rest := (List.nodup_cons.mp h2).1
        refine ⟨?_, (List.nodup_cons.mp h2).2, h3, ?_, ?_⟩
        · intro w1 w2 id1 e1 e2
          dsimp only at e1 e2
          by_cases c1 : w1 = w
          · by_cases c2 : w2 = w
            · exact c1.trans c2.symm
            · subst c1
              simp only [Function.update_same] at e1
              rw [Function.update_noteq c2] at e2
              cases e1
              exact absurd e2 (hhead w2)
          · by_cases c2 : w2 = w
            · subst c2
              simp only [Function.update_same] at e2
              rw [Function.update_noteq c1] at e1
              cases e2
              exact absurd e1 (hhead w1)
            · rw [Function.update_noteq c1] at e1
              rw [Function.update_noteq c2] at e2
              exact h1 w1 w2 id1 e1 e2
        · intro id1 hmem v hv
          dsimp only at hv hmem
          by_cases c : v = w
          · subst c
            simp only [Function.update_same] at hv
            cases hv
            exact hnot hmem
          · rw [Function.update_noteq c] at hv
            exact h4 id1 (List.mem_cons_of_mem _ hmem) v hv
        · intro id1 hmem
          obtain ⟨v, hv⟩ := h5 id1 hmem
          have c : v ≠ w := by
            intro e
            subst e
            rw [hw] at hv
            cases hv
          exact ⟨v, by simpa [Function.update_noteq c] using hv⟩

theorem WorkQueue.done_inv (q : WorkQueue) (w : Fin MaxConcurrentReconciles) (h : q.Inv) :
    (q.done w).Inv := by
  have hq := h
  obtain ⟨h1, h2, h3, h4, h5⟩ := h
  cases hw : q.inFlight w with
  | none => rw [WorkQueue.done_of_idle q w hw]; exact hq
  | some id =>
    rw [WorkQueue.done_of_busy q w id hw]
    have hclear : ∀ (v : Fin MaxConcurrentReconciles) (id1 : NamespacedName),
        Function.update q.inFlight w none v = some id1 →
          v ≠ w ∧ q.inFlight v = some id1 := by
      intro v id1 hv
      by_cases c : v = w
      · subst c
        simp at hv
      · rw [Function.update_noteq c] at hv
        exact ⟨c, hv⟩
    have huniq : ∀ w1 w2 id1, Function.update q.inFlight w none w1 = some id1 →
        Function.update q.inFlight w none w2 = some id1 → w1 = w2 := by
      intro w1 w2 id1 e1 e2
      exact h1 w1 w2 id1 (hclear w1 id1 e1).2 (hclear w2 id1 e2).2
    have hfree : ∀ v, Function.update q.inFlight w none v ≠ some id := by
      intro v hv
      obtain ⟨c, hv2⟩ := hclear v id hv
      exact c (h1 v w id hv2 hw)
    split_ifs with hd
    · refine ⟨huniq, ?_, h3.erase id, ?_, ?_⟩
      · have hnr : id ∉ q.ready := fun hm => h4 id hm w hw
        exact List.Nodup.append h2 (List.nodup_singleton _) (by simpa using hnr)
      · intro id1 hmem v hv
        rcases List.mem_append.mp hmem with hm | hm
        · exact h4 id1 hm v (hclear v id1 hv).2
        · rw [List.mem_singleton] at hm
          subst hm
          exact hfree v hv
      · intro id1 hmem
        have hm := (List.Nodup.mem_erase_iff h3).mp hmem
        obtain ⟨v, hv⟩ := h5 id1 hm.2
        have c : v ≠ w := by
          intro e
          subst e
          rw [hw] at hv
          cases hv
          exact hm.1 rfl
        exact ⟨v, by simpa [Function.update_noteq c] using hv⟩
    · refine ⟨huniq, h2, h3, ?_, ?_⟩
      · intro id1 hmem v hv
        exact h4 id1 hmem v (hclear v id1 hv).2
      · intro id1 hmem
        obtain ⟨v, hv⟩ := h5 id1 hmem
        have c : v ≠ w := by
          intro e
          subst e
          rw [hw] at hv
          cases hv
          exact hd hmem
        exact ⟨v, by simpa [Function.update_noteq c] using hv⟩

theorem WorkQueue.step_inv (q : WorkQueue) (op : QueueOp) (h : q.Inv) :
    (q.step op).Inv := by
  cases op with
  | add id => exact WorkQueue.add_inv q id h
  | get w => exact WorkQueue.get_inv q w h
  | done w => exact WorkQueue.done_inv q w h
  | shutDown => exact h

theorem runOps_inv (ops : List QueueOp) (q : WorkQueue) (h : q.Inv) :
    (runOps ops q).Inv := by
  induction ops generalizing q with
  | nil => exact h
  | cons op ops ih => exact ih (q.step op) (WorkQueue.step_inv q op h)

theorem length_le_one_of_all_eq {α : Type} (l : List α) (hn : l.Nodup)
    (heq : ∀ a ∈ l, ∀ b ∈ l, a = b) : l.length ≤ 1 := by
  match l, hn, heq with
  | [], _, _ => simp
  | [_], _, _ => simp
  | a :: b :: rest, hn, heq =>
    have hab : a = b := heq a (by simp) b (by simp)
    subst hab
    simp at hn

theorem inFlightCount_le_one (q : WorkQueue) (h : q.Inv) (id : NamespacedName) :
    inFlightCount q id ≤ 1 := by
  unfold inFlightCount
  apply length_le_one_of_all_eq
  · exact List.Nodup.filter _ (List.nodup_finRange _)
  · intro a ha b hb
    simp only [List.mem_filter, decide_eq_true_eq] at ha hb
    exact h.1 a b id ha.2 hb.2

theorem pending_le_one (q : WorkQueue) (h : q.Inv) (id : NamespacedName) :
    pending q id ≤ 1 := by
  obtain ⟨h1, h2, h3, h4, h5⟩ := h
  unfold pending
  have hr : q.ready.count id ≤ 1 := List.nodup_iff_count_le_one.mp h2 id
  have hd : q.dirty.count id ≤ 1 := List.nodup_iff_count_le_one.mp h3 id
  by_cases hm : id ∈ q.ready
  · have hnd : id ∉ q.dirty := by
      intro hmd
      obtain ⟨w, hw⟩ := h5 id hmd
      exact h4 id hm w hw
    rw [List.count_eq_zero_of_not_mem hnd]
    omega
  · rw [List.count_eq_zero_of_not_mem hm]
    omega

theorem WorkQueue.add_inFlight (q : WorkQueue) (id : NamespacedName) :
    (q.add id).inFlight = q.inFlight := by
  unfold WorkQueue.add
  split_ifs <;> rfl

theorem WorkQueue.add_add (q : WorkQueue) (id : NamespacedName) :
    (q.add id).add id = q.add id := by
  have e : ∀ (r d : List NamespacedName) (sd : Bool),
      WorkQueue.processing
        { ready := r, dirty := d, inFlight := q.inFlight, shuttingDown := sd } id =
      q.processing id := fun _ _ _ => rfl
  by_cases hs : q.shuttingDown = true
  · simp [WorkQueue.add, hs]
  · by_cases hp : q.processing id = true
    · by_cases hd : id ∈ q.dirty
      · simp [WorkQueue.add, hs, hp, hd]
      · simp [WorkQueue.add, hs, hp, hd, e]
    · by_cases hr : id ∈ q.ready
      · simp [WorkQueue.add, hs, hp, hr]
      · simp [WorkQueue.add, hs, hp, hr, e]

theorem runOps_append (a b : List QueueOp) (q : WorkQueue) :
    runOps (a ++ b) q = runOps b (runOps a q) := by
  simp [runOps, List.foldl_append]

theorem runOps_replicate_add (q : WorkQueue) (id : NamespacedName) (n : Nat) :
    runOps (List.replicate (n + 1) (QueueOp.add id)) q = q.add id := by
  induction n generalizing q with
  | zero => rfl
  | succ n ih =>
    have h : runOps (List.replicate (n + 1 + 1) (QueueOp.add id)) q =
        runOps (List.replicate (n + 1) (QueueOp.add id)) (q.add id) := rfl
    rw [h, ih, WorkQueue.add_add]

theorem runOps_replicate_add_inFlight (q : WorkQueue) (id : NamespacedName) (n : Nat) :
    (runOps (List.replicate n (QueueOp.add id)) q).inFlight = q.inFlight := by
  cases n with
  | zero => rfl
  | succ n => rw [runOps_replicate_add, WorkQueue.add_inFlight]

/-! ## The finalizer protocol -/

/-- C1: for an object marked for deletion whose finalizers hold the token, when
the cleanup hook returns an error, Reconcile returns exactly that error with
the empty Result, calls Get and the hook and nothing else (no Update), and the
stored object is the fetched one, its finalizers unchanged and the token still
among them. -/
theorem Reconcile_cleanup_failure_keeps_finalizer (cleanup : App → Option Error)
    (r : AppReconciler) (req : Request) (app : App) (e : Error)
    (hget : r.Get req.NamespacedName = Except.ok app)
    (hdel : IsZero app.ObjectMeta.DeletionTimestamp = false)
    (hpres : myFinalizerName ∈ app.ObjectMeta.Finalizers)
    (hfail : cleanup app = some e) :
    (ReconcileWith cleanup r req).err = some e ∧
    (ReconcileWith cleanup r req).result = {} ∧
    (ReconcileWith cleanup r req).trace =
      [Action.get req.NamespacedName, Action.cleanup app] ∧
    updates (ReconcileWith cleanup r req).trace = [] ∧
    storedAfter r app (ReconcileWith cleanup r req).trace = app ∧
    (storedAfter r app (ReconcileWith cleanup r req).trace).ObjectMeta.Finalizers =
      app.ObjectMeta.Finalizers ∧
    myFinalizerName ∈
      (storedAfter r app (ReconcileWith cleanup r req).trace).ObjectMeta.Finalizers := by
  rw [ReconcileWith_deleting_cleanup_failed cleanup r req app e hget hdel hpres hfail]
  simp [updates, storedAfter, hpres]

theorem Reconcile_cleanup_failure_keeps_finalizer_witness :
    (ReconcileWith (fun _ => some (Error.other "bucket busy"))
        (clientOf (deletingApp ["keep", myFinalizerName]) none) sampleReq).err
      = some (Error.other "bucket busy") ∧
    updates (ReconcileWith (fun _ => some (Error.other "bucket busy"))
        (clientOf (deletingApp ["keep", myFinalizerName]) none) sampleReq).trace = [] ∧
    (storedAfter (clientOf (deletingApp ["keep", myFinalizerName]) none)
        (deletingApp ["keep", myFinalizerName])
        (ReconcileWith (fun _ => some (Error.other "bucket busy"))
          (clientOf (deletingApp ["keep", myFinalizerName]) none)
          sampleReq).trace).ObjectMeta.Finalizers
      = ["keep", myFinalizerName] :=
  have h := Reconcile_cleanup_failure_keeps_finalizer
    (fun _ => some (Error.other "bucket busy"))
    (clientOf (deletingApp ["keep", myFinalizerName]) none) sampleReq
    (deletingApp ["keep", myFinalizerName]) (Error.other "bucket busy")
    rfl rfl (by simp [deletingApp, sampleMeta]) rfl
  ⟨h.1, h.2.2.2.1, h.2.2.2.2.2.1⟩

/-- C2: for an object marked for deletion whose finalizers hold the token, when
the cleanup hook succeeds, Reconcile issues exactly one Update, of the fetched
object with every occurrence of the token filtered out of its finalizers (the
token is absent from the written list, and the written list is empty exactly
when the fetched list held nothing but the token), after exactly one call of
the hook; when that Update succeeds Reconcile returns the empty Result and a
nil error. -/
theorem Reconcile_cleanup_success_removes_finalizer (cleanup : App → Option Error)
    (r : AppReconciler) (req : Request) (app : App)
    (hget : r.Get req.NamespacedName = Except.ok app)
    (hdel : IsZero app.ObjectMeta.DeletionTimestamp = false)
    (hpres : myFinalizerName ∈ app.ObjectMeta.Finalizers)
    (hok : cleanup app = none) :
    updates (ReconcileWith cleanup r req).trace =
      [withFinalizers app
        (app.ObjectMeta.Finalizers.filter (fun x => decide (x ≠ myFinalizerName)))] ∧
    cleanups (ReconcileWith cleanup r req).trace = [app] ∧
    myFinalizerName ∉
      app.ObjectMeta.Finalizers.filter (fun x => decide (x ≠ myFinalizerName)) ∧
    (app.ObjectMeta.Finalizers.filter (fun x => decide (x ≠ myFinalizerName)) = [] ↔
      ∀ x ∈ app.ObjectMeta.Finalizers, x = myFinalizerName) ∧
    (r.Update (withFinalizers app
        (app.ObjectMeta.Finalizers.filter (fun x => decide (x ≠ myFinalizerName)))) = none →
      (ReconcileWith cleanup r req).result = {} ∧
      (ReconcileWith cleanup r req).err = none) := by
  rw [ReconcileWith_deleting_cleanup_ok cleanup r req app hget hdel hpres hok]
  refine ⟨by simp [updates], by simp [cleanups], by simp [List.mem_filter], ?_, ?_⟩
  · simp [List.filter_eq_nil_iff]
  · intro hu
    exact ⟨rfl, hu⟩

theorem Reconcile_cleanup_success_removes_finalizer_witness :
    updates (ReconcileWith (fun _ => none)
        (clientOf (deletingApp [myFinalizerName, "keep", myFinalizerName]) none)
        sampleReq).trace
      = [withFinalizers (deletingApp [myFinalizerName, "keep", myFinalizerName]) ["keep"]] ∧
    (ReconcileWith (fun _ => none)
        (clientOf (deletingApp [myFinalizerName, "keep", myFinalizerName]) none)
        sampleReq).err = none :=
  have h := Reconcile_cleanup_success_removes_finalizer (fun _ => none)
    (clientOf (deletingApp [myFinalizerName, "keep", myFinalizerName]) none) sampleReq
    (deletingApp [myFinalizerName, "keep", myFinalizerName])
    rfl rfl (by simp [deletingApp, sampleMeta]) rfl
  ⟨by
    have h1 := h.1
    have hf : (deletingApp [myFinalizerName, "keep", myFinalizerName]).ObjectMeta.Finalizers.filter
        (fun x => decide (x ≠ myFinalizerName)) = ["keep"] := by
      simp [deletingApp, sampleMeta, myFinalizerName, List.filter]
    rw [hf] at h1
    exact h1, (h.2.2.2.2 rfl).2⟩

/-- C3: for a live object (deletionTimestamp nil or zero) whose finalizers do
not hold the token, Reconcile issues exactly one Update, of the fetched object
with the token appended at the end of its finalizers, never calls the cleanup
hook, and returns the empty Result and a nil error when that Update
succeeds. -/
theorem Reconcile_live_appends_finalizer (cleanup : App → Option Error)
    (r : AppReconciler) (req : Request) (app : App)
    (hget : r.Get req.NamespacedName = Except.ok app)
    (hlive : IsZero app.ObjectMeta.DeletionTimestamp = true)
    (habs : myFinalizerName ∉ app.ObjectMeta.Finalizers) :
    updates (ReconcileWith cleanup r req).trace =
      [withFinalizers app (app.ObjectMeta.Finalizers ++ [myFinalizerName])] ∧
    cleanups (ReconcileWith cleanup r req).trace = [] ∧
    (r.Update (withFinalizers app (app.ObjectMeta.Finalizers ++ [myFinalizerName])) = none →
      (ReconcileWith cleanup r req).result = {} ∧
      (ReconcileWith cleanup r req).err = none) := by
  rw [ReconcileWith_live_absent cleanup r req app hget hlive habs]
  refine ⟨by simp [updates], by simp [cleanups], ?_⟩
  intro hu
  exact ⟨rfl, hu⟩

theorem Reconcile_live_appends_finalizer_witness :
    updates (ReconcileWith deleteExternalResources (clientOf (liveApp ["keep"]) none)
        sampleReq).trace
      = [withFinalizers (liveApp ["keep"]) ["keep", myFinalizerName]] ∧
    cleanups (ReconcileWith deleteExternalResources (clientOf (liveApp ["keep"]) none)
        sampleReq).trace = [] ∧
    (ReconcileWith deleteExternalResources (clientOf (liveApp ["keep"]) none)
        sampleReq).err = none :=
  have h := Reconcile_live_appends_finalizer deleteExternalResources
    (clientOf (liveApp ["keep"]) none) sampleReq (liveApp ["keep"])
    rfl rfl (by simp [liveApp, sampleMeta, myFinalizerName])
  ⟨h.1, h.2.1, (h.2.2 rfl).2⟩

/-! ## Idempotence -/

/-- C4: when a run of Reconcile on a fetched object ends without error, a
second run on the stored object that results (the object whose Update
succeeded, or the fetched object when nothing was written) only calls Get: no
Update, no cleanup, the empty Result and a nil error, and the stored object
stays the same.  And a live object that already carries the token is such a
no-op at the first run: only Get is called, the run converges, and the stored
object is the fetched one, token included. -/
theorem Reconcile_idempotent (cleanup cleanup2 : App → Option Error)
    (r r2 : AppReconciler) (req req2 : Request) (app : App)
    (hget : r.Get req.NamespacedName = Except.ok app) :
    ((ReconcileWith cleanup r req).err = none →
      r2.Get req2.NamespacedName =
        Except.ok (storedAfter r app (ReconcileWith cleanup r req).trace) →
      (ReconcileWith cleanup2 r2 req2).trace = [Action.get req2.NamespacedName] ∧
      updates (ReconcileWith cleanup2 r2 req2).trace = [] ∧
      cleanups (ReconcileWith cleanup2 r2 req2).trace = [] ∧
      (ReconcileWith cleanup2 r2 req2).result = {} ∧
      (ReconcileWith cleanup2 r2 req2).err = none ∧
      storedAfter r2 (storedAfter r app (ReconcileWith cleanup r req).trace)
          (ReconcileWith cleanup2 r2 req2).trace =
        storedAfter r app (ReconcileWith cleanup r req).trace) ∧
    (IsZero app.ObjectMeta.DeletionTimestamp = true →
      myFinalizerName ∈ app.ObjectMeta.Finalizers →
      (ReconcileWith cleanup r req).trace = [Action.get req.NamespacedName] ∧
      (ReconcileWith cleanup r req).result = {} ∧
      (ReconcileWith cleanup r req).err = none ∧
      storedAfter r app (ReconcileWith cleanup r req).trace = app ∧
      myFinalizerName ∈
        (storedAfter r app (ReconcileWith cleanup r req).trace).ObjectMeta.Finalizers) := by
  constructor
  · intro hok hget2
    have hset : (IsZero (storedAfter r app
          (ReconcileWith cleanup r req).trace).ObjectMeta.DeletionTimestamp = true ∧
        myFinalizerName ∈
          (storedAfter r app (ReconcileWith cleanup r req).trace).ObjectMeta.Finalizers) ∨
        (IsZero (storedAfter r app
          (ReconcileWith cleanup r req).trace).ObjectMeta.DeletionTimestamp = false ∧
        myFinalizerName ∉
          (storedAfter r app
            (ReconcileWith cleanup r req).trace).ObjectMeta.Finalizers) := by
      cases hz : IsZero app.ObjectMeta.DeletionTimestamp with
      | true =>
        by_cases hm : myFinalizerName ∈ app.ObjectMeta.Finalizers
        · rw [ReconcileWith_live_present cleanup r req app hget hz hm]
          rw [storedAfter_get_only]
          exact Or.inl ⟨hz, hm⟩
        · rw [ReconcileWith_live_absent cleanup r req app hget hz hm] at hok ⊢
          have hu : r.Update
              (withFinalizers app (app.ObjectMeta.Finalizers ++ [myFinalizerName])) = none :=
            hok
          have hs := storedAfter_update_ok r app
            (withFinalizers app (app.ObjectMeta.Finalizers ++ [myFinalizerName]))
            [Action.get req.NamespacedName] (by simp [updates]) hu
          simp only [List.singleton_append] at hs
          rw [hs]
          exact Or.inl ⟨by simpa [withFinalizers] using hz, by simp [withFinalizers]⟩
      | false =>
        by_cases hm : myFinalizerName ∈ app.ObjectMeta.Finalizers
        · cases hc : cleanup app with
          | some e =>
            rw [ReconcileWith_deleting_cleanup_failed cleanup r req app e hget hz hm hc] at hok
            simp at hok
          | none =>
            rw [ReconcileWith_deleting_cleanup_ok cleanup r req app hget hz hm hc] at hok ⊢
            have hu : r.Update (withFinalizers app
                (app.ObjectMeta.Finalizers.filter
                  (fun x => decide (x ≠ myFinalizerName)))) = none := hok
            have hs := storedAfter_update_ok r app
              (withFinalizers app
                (app.ObjectMeta.Finalizers.filter (fun x => decide (x ≠ myFinalizerName))))
              [Action.get req.NamespacedName, Action.cleanup app]
              (by simp [updates]) hu
            simp only [List.cons_append, List.nil_append] at hs
            rw [hs]
            exact Or.inr ⟨by simpa [withFinalizers] using hz,
              by simp [withFinalizers, List.mem_filter]⟩
        · rw [ReconcileWith_deleting_absent cleanup r req app hget hz hm]
          rw [storedAfter_get_only]
          exact Or.inr ⟨hz, hm⟩
    rw [ReconcileWith_settled cleanup2 r2 req2 _ hget2 hset]
    simp [updates, cleanups, storedAfter]
  · intro hz hm
    rw [ReconcileWith_live_present cleanup r req app hget hz hm]
    simp [storedAfter, updates, hm]

theorem Reconcile_idempotent_witness :
    (ReconcileWith deleteExternalResources
        (clientOf (withFinalizers (liveApp ["keep"]) ["keep", myFinalizerName]) none)
        sampleReq).trace = [Action.get sampleReq.NamespacedName] ∧
    (ReconcileWith deleteExternalResources
        (clientOf (withFinalizers (liveApp ["keep"]) ["keep", myFinalizerName]) none)
        sampleReq).err = none ∧
    (ReconcileWith deleteExternalResources (clientOf (liveApp [myFinalizerName]) none)
        sampleReq).trace = [Action.get sampleReq.NamespacedName] :=
  have h1 := (Reconcile_idempotent deleteExternalResources deleteExternalResources
    (clientOf (liveApp ["keep"]) none)
    (clientOf (withFinalizers (liveApp ["keep"]) ["keep", myFinalizerName]) none)
    sampleReq sampleReq (liveApp ["keep"]) rfl).1
    (by simp [ReconcileWith, clientOf, IsZero, liveApp, sampleMeta, containsString,
      myFinalizerName])
    (by simp [ReconcileWith, clientOf, IsZero, liveApp, sampleMeta, containsString,
      myFinalizerName, storedAfter, updates, withFinalizers])
  have h2 := (Reconcile_idempotent deleteExternalResources deleteExternalResources
    (clientOf (liveApp [myFinalizerName]) none) (clientOf (liveApp [myFinalizerName]) none)
    sampleReq sampleReq (liveApp [myFinalizerName]) rfl).2 rfl
    (by simp [liveApp, sampleMeta])
  ⟨h1.1, h1.2.2.2.2.1, h2.1⟩

/-! ## Errors and results -/

/-- C5: when Get reports NotFound, Reconcile returns the empty Result and a nil
error, and its only call is that Get: no Update, no cleanup. -/
theorem Reconcile_not_found_converges (cleanup : App → Option Error) (r : AppReconciler)
    (req : Request) (hget : r.Get req.NamespacedName = Except.error Error.notFound) :
    (ReconcileWith cleanup r req).result = {} ∧
    (ReconcileWith cleanup r req).err = none ∧
    (ReconcileWith cleanup r req).trace = [Action.get req.NamespacedName] ∧
    updates (ReconcileWith cleanup r req).trace = [] ∧
    cleanups (ReconcileWith cleanup r req).trace = [] := by
  rw [ReconcileWith_get_error cleanup r req Error.notFound hget]
  simp [IgnoreNotFound, updates, cleanups]

theorem Reconcile_not_found_converges_witness :
    (clientFailing Error.notFound).Get sampleReq.NamespacedName
      = Except.error Error.notFound ∧
    (ReconcileWith deleteExternalResources (clientFailing Error.notFound) sampleReq).result
      = {} ∧
    (ReconcileWith deleteExternalResources (clientFailing Error.notFound) sampleReq).err
      = none ∧
    updates (ReconcileWith deleteExternalResources (clientFailing Error.notFound)
      sampleReq).trace = [] :=
  have h := Reconcile_not_found_converges deleteExternalResources
    (clientFailing Error.notFound) sampleReq rfl
  ⟨rfl, h.1, h.2.1, h.2.2.2.1⟩

/-- C6: Reconcile returns a non-nil error exactly when the Get fails with an
error other than NotFound, or the cleanup hook is called and fails, or an
issued Update fails (with a conflict or any other error).  In each of the three
cases the returned error is that very error and the failing call is the last
call of the run. -/
theorem Reconcile_error_iff (cleanup : App → Option Error) (r : AppReconciler)
    (req : Request) :
    ((ReconcileWith cleanup r req).err ≠ none ↔
      ((∃ e, r.Get req.NamespacedName = Except.error e ∧ e ≠ Error.notFound) ∨
       (∃ app e, app ∈ cleanups (ReconcileWith cleanup r req).trace ∧
          cleanup app = some e) ∨
       (∃ w e, w ∈ updates (ReconcileWith cleanup r req).trace ∧
          r.Update w = some e))) ∧
    (∀ e, r.Get req.NamespacedName = Except.error e → e ≠ Error.notFound →
      (ReconcileWith cleanup r req).err = some e ∧
      (ReconcileWith cleanup r req).trace = [Action.get req.NamespacedName]) ∧
    (∀ app e, app ∈ cleanups (ReconcileWith cleanup r req).trace → cleanup app = some e →
      (ReconcileWith cleanup r req).err = some e ∧
      (ReconcileWith cleanup r req).trace.getLast? = some (Action.cleanup app)) ∧
    (∀ w e, w ∈ updates (ReconcileWith cleanup r req).trace → r.Update w = some e →
      (ReconcileWith cleanup r req).err = some e ∧
      (ReconcileWith cleanup r req).trace.getLast? = some (Action.update w)) := by
  have hA : ∀ e, r.Get req.NamespacedName = Except.error e → e ≠ Error.notFound →
      (ReconcileWith cleanup r req).err = some e ∧
      (ReconcileWith cleanup r req).trace = [Action.get req.NamespacedName] := by
    intro e hge hne
    rw [ReconcileWith_get_error cleanup r req e hge]
    exact ⟨IgnoreNotFound_of_ne e hne, rfl⟩
  have hB : ∀ app e, app ∈ cleanups (ReconcileWith cleanup r req).trace →
      cleanup app = some e →
      (ReconcileWith cleanup r req).err = some e ∧
      (ReconcileWith cleanup r req).trace.getLast? = some (Action.cleanup app) := by
    intro app e hmem hce
    rcases ReconcileWith_cases cleanup r req with ⟨e0, _, ho⟩ | ⟨a0, _, _, _, ho⟩ |
      ⟨a0, _, ho⟩ | ⟨a0, e0, _, _, _, hc, ho⟩ | ⟨a0, _, _, _, hc, ho⟩
    · rw [ho] at hmem; simp [cleanups] at hmem
    · rw [ho] at hmem; simp [cleanups] at hmem
    · rw [ho] at hmem; simp [cleanups] at hmem
    · rw [ho] at hmem ⊢
      simp [cleanups] at hmem
      subst hmem
      rw [hc] at hce
      simpa using hce
    · rw [ho] at hmem
      simp [cleanups] at hmem
      subst hmem
      rw [hc] at hce
      simp at hce
  have hC : ∀ w e, w ∈ updates (ReconcileWith cleanup r req).trace →
      r.Update w = some e →
      (ReconcileWith cleanup r req).err = some e ∧
      (ReconcileWith cleanup r req).trace.getLast? = some (Action.update w) := by
    intro w e hmem hue
    rcases ReconcileWith_cases cleanup r req with ⟨e0, _, ho⟩ | ⟨a0, _, _, _, ho⟩ |
      ⟨a0, _, ho⟩ | ⟨a0, e0, _, _, _, hc, ho⟩ | ⟨a0, _, _, _, hc, ho⟩
    · rw [ho] at hmem; simp [updates] at hmem
    · rw [ho] at hmem ⊢
      simp only [updates, List.mem_singleton] at hmem
      subst hmem
      exact ⟨hue, rfl⟩
    · rw [ho] at hmem; simp [updates] at hmem
    · rw [ho] at hmem; simp [updates] at hmem
    · rw [ho] at hmem ⊢
      simp only [updates, List.mem_singleton] at hmem
      subst hmem
      exact ⟨hue, rfl⟩
  refine ⟨⟨?_, ?_⟩, hA, hB, hC⟩
  · intro herr
    rcases ReconcileWith_cases cleanup r req with ⟨e0, hg, ho⟩ | ⟨a0, _, _, _, ho⟩ |
      ⟨a0, _, ho⟩ | ⟨a0, e0, _, _, _, hc, ho⟩ | ⟨a0, _, _, _, hc, ho⟩
    · rw [ho] at herr
      exact Or.inl ⟨e0, hg, IgnoreNotFound_ne_none e0 herr⟩
    · rw [ho] at herr ⊢
      obtain ⟨e, he⟩ := Option.ne_none_iff_exists'.mp herr
      exact Or.inr (Or.inr ⟨_, e, by simp [updates], he⟩)
    · rw [ho] at herr
      exact absurd rfl herr
    · rw [ho]
      exact Or.inr (Or.inl ⟨a0, e0, by simp [cleanups], hc⟩)
    · rw [ho] at herr ⊢
      obtain ⟨e, he⟩ := Option.ne_none_iff_exists'.mp herr
      exact Or.inr (Or.inr ⟨_, e, by simp [updates], he⟩)
  · rintro (⟨e, hge, hne⟩ | ⟨app, e, hmem, hce⟩ | ⟨w, e, hmem, hue⟩)
    · rw [(hA e hge hne).1]; simp
    · rw [(hB app e hmem hce).1]; simp
    · rw [(hC w e hmem hue).1]; simp

theorem Reconcile_error_iff_witness :
    (Reconcile (clientOf (liveApp []) (some Error.conflict)) sampleReq).err
      = some Error.conflict ∧
    (Reconcile (clientFailing (Error.other "timeout")) sampleReq).err
      = some (Error.other "timeout") :=
  ⟨((Reconcile_error_iff deleteExternalResources
      (clientOf (liveApp []) (some Error.conflict)) sampleReq).2.2.2
      (withFinalizers (liveApp []) [myFinalizerName]) Error.conflict
      (by simp [ReconcileWith, clientOf, IsZero, liveApp, sampleMeta, containsString,
        updates, withFinalizers])
      rfl).1,
   ((Reconcile_error_iff deleteExternalResources
      (clientFailing (Error.other "timeout")) sampleReq).2.1
      (Error.other "timeout") rfl (by simp)).1⟩

/-- C7, as stated, fails: the live object without finalizers is fetched, the
Update that appends the token fails with a conflict, and Reconcile returns the
empty Result (Requeue false, RequeueAfter 0) together with the conflict as its
error. -/
theorem Reconcile_conflict_not_requeued :
    (clientOf (liveApp []) (some Error.conflict)).Update
        (withFinalizers (liveApp []) [myFinalizerName]) = some Error.conflict ∧
    Reconcile (clientOf (liveApp []) (some Error.conflict)) sampleReq =
      { result := { Requeue := false, RequeueAfter := 0 },
        err := some Error.conflict,
        trace := [Action.get sampleReq.NamespacedName,
          Action.update (withFinalizers (liveApp []) [myFinalizerName])] } := by
  refine ⟨rfl, ?_⟩
  simp [Reconcile, ReconcileWith, clientOf, IsZero, liveApp, sampleMeta, containsString,
    withFinalizers]

/-- C7, amended: whenever an Update issued by Reconcile fails with a conflict,
Reconcile returns the empty Result (Requeue not set, no delay) and the
conflict itself as its error, and that Update is the last call of the run. -/
theorem Reconcile_conflict_surfaces (cleanup : App → Option Error) (r : AppReconciler)
    (req : Request) (w : App)
    (hmem : w ∈ updates (ReconcileWith cleanup r req).trace)
    (hconf : r.Update w = some Error.conflict) :
    (ReconcileWith cleanup r req).result = {} ∧
    (ReconcileWith cleanup r req).result.Requeue = false ∧
    (ReconcileWith cleanup r req).err = some Error.conflict ∧
    (ReconcileWith cleanup r req).trace.getLast? = some (Action.update w) := by
  rcases ReconcileWith_cases cleanup r req with ⟨e0, _, ho⟩ | ⟨a0, _, _, _, ho⟩ |
    ⟨a0, _, ho⟩ | ⟨a0, e0, _, _, _, hc, ho⟩ | ⟨a0, _, _, _, hc, ho⟩
  · rw [ho] at hmem; simp [updates] at hmem
  · rw [ho] at hmem ⊢
    simp only [updates, List.mem_singleton] at hmem
    subst hmem
    exact ⟨rfl, rfl, hconf, rfl⟩
  · rw [ho] at hmem; simp [updates] at hmem
  · rw [ho] at hmem; simp [updates] at hmem
  · rw [ho] at hmem ⊢
    simp only [updates, List.mem_singleton] at hmem
    subst hmem
    exact ⟨rfl, rfl, hconf, rfl⟩

theorem Reconcile_conflict_surfaces_witness :
    (ReconcileWith deleteExternalResources
        (clientOf (deletingApp [myFinalizerName]) (some Error.conflict)) sampleReq).result
      = {} ∧
    (ReconcileWith deleteExternalResources
        (clientOf (deletingApp [myFinalizerName]) (some Error.conflict)) sampleReq).err
      = some Error.conflict :=
  have h := Reconcile_conflict_surfaces deleteExternalResources
    (clientOf (deletingApp [myFinalizerName]) (some Error.conflict)) sampleReq
    (withFinalizers (deletingApp [myFinalizerName]) [])
    (by simp [ReconcileWith, clientOf, IsZero, Time.IsZero, deletingApp, liveApp,
      sampleMeta, containsString, deleteExternalResources, removeString, removeStringLoop,
      updates, withFinalizers])
    rfl
  ⟨h.1, h.2.2.1⟩

/-- C8, as stated, fails: the live object that already carries the token is
fetched successfully, and Reconcile returns the empty Result and a nil error
after the Get alone: nothing is written, so no status is. -/
theorem Reconcile_live_writes_no_status :
    (clientOf (liveApp [myFinalizerName]) none).Get sampleReq.NamespacedName
      = Except.ok (liveApp [myFinalizerName]) ∧
    IsZero (liveApp [myFinalizerName]).ObjectMeta.DeletionTimestamp = true ∧
    Reconcile (clientOf (liveApp [myFinalizerName]) none) sampleReq =
      { result := {}, err := none, trace := [Action.get sampleReq.NamespacedName] } ∧
    updates (Reconcile (clientOf (liveApp [myFinalizerName]) none) sampleReq).trace = [] := by
  refine ⟨rfl, rfl, ?_, ?_⟩ <;>
    simp [Reconcile, ReconcileWith, clientOf, IsZero, liveApp, sampleMeta, containsString,
      updates]

/-- C8, amended: for every live object that is fetched successfully, Reconcile
performs no convergence step and recomputes no status.  It writes nothing when
the token is present, and when the token is absent its only write is the one
Update that appends the token; every object it writes is the fetched object
with other finalizers, so it carries the spec and the status as fetched.  The
cleanup hook is not called. -/
theorem Reconcile_live_only_finalizer_write (cleanup : App → Option Error)
    (r : AppReconciler) (req : Request) (app : App)
    (hget : r.Get req.NamespacedName = Except.ok app)
    (hlive : IsZero app.ObjectMeta.DeletionTimestamp = true) :
    (myFinalizerName ∈ app.ObjectMeta.Finalizers →
      (ReconcileWith cleanup r req).trace = [Action.get req.NamespacedName] ∧
      (ReconcileWith cleanup r req).result = {} ∧
      (ReconcileWith cleanup r req).err = none) ∧
    (myFinalizerName ∉ app.ObjectMeta.Finalizers →
      (ReconcileWith cleanup r req).trace = [Action.get req.NamespacedName,
        Action.update
          (withFinalizers app (app.ObjectMeta.Finalizers ++ [myFinalizerName]))]) ∧
    (∀ w ∈ updates (ReconcileWith cleanup r req).trace,
      w = withFinalizers app (app.ObjectMeta.Finalizers ++ [myFinalizerName]) ∧
      w.Status = app.Status ∧ w.Spec = app.Spec) ∧
    cleanups (ReconcileWith cleanup r req).trace = [] := by
  by_cases hm : myFinalizerName ∈ app.ObjectMeta.Finalizers
  · rw [ReconcileWith_live_present cleanup r req app hget hlive hm]
    simp [updates, cleanups, hm]
  · rw [ReconcileWith_live_absent cleanup r req app hget hlive hm]
    simp [updates, cleanups, hm, withFinalizers]

theorem Reconcile_live_only_finalizer_write_witness :
    (ReconcileWith deleteExternalResources (clientOf (liveApp ["keep"]) none)
        sampleReq).trace =
      [Action.get sampleReq.NamespacedName,
        Action.update (withFinalizers (liveApp ["keep"])
          ((liveApp ["keep"]).ObjectMeta.Finalizers ++ [myFinalizerName]))] :=
  (Reconcile_live_only_finalizer_write deleteExternalResources
    (clientOf (liveApp ["keep"]) none) sampleReq (liveApp ["keep"]) rfl rfl).2.1
    (by simp [liveApp, sampleMeta, myFinalizerName])

/-- C9: whatever Get, the cleanup hook and Update answer, Reconcile returns the
empty Result, with Requeue false and RequeueAfter zero; so a requeue delay is
never set together with a non-nil error. -/
theorem Reconcile_result_empty (cleanup : App → Option Error) (r : AppReconciler)
    (req : Request) :
    (ReconcileWith cleanup r req).result = {} ∧
    (ReconcileWith cleanup r req).result.Requeue = false ∧
    (ReconcileWith cleanup r req).result.RequeueAfter = 0 ∧
    ¬ ((ReconcileWith cleanup r req).result.RequeueAfter ≠ 0 ∧
        (ReconcileWith cleanup r req).err ≠ none) := by
  rcases ReconcileWith_cases cleanup r req with ⟨e0, _, ho⟩ | ⟨a0, _, _, _, ho⟩ |
    ⟨a0, _, ho⟩ | ⟨a0, e0, _, _, _, hc, ho⟩ | ⟨a0, _, _, _, hc, ho⟩ <;>
  · rw [ho]
    simp

/-- C10: every object that Reconcile hands to Update comes after a successful
Get of the requested identity, the first call of the same run, and is the
object that Get returned with another finalizer list and nothing else changed:
type, name, namespace, UID, resourceVersion, generation, deletionTimestamp,
labels, annotations, spec and status are as fetched. -/
theorem Reconcile_read_before_write (cleanup : App → Option Error) (r : AppReconciler)
    (req : Request) (w : App)
    (hmem : w ∈ updates (ReconcileWith cleanup r req).trace) :
    ∃ (fetched : App) (fs : List String) (rest : List Action),
      r.Get req.NamespacedName = Except.ok fetched ∧
      (ReconcileWith cleanup r req).trace = Action.get req.NamespacedName :: rest ∧
      Action.update w ∈ rest ∧
      w = withFinalizers fetched fs ∧
      w.TypeMeta = fetched.TypeMeta ∧
      w.ObjectMeta.Name = fetched.ObjectMeta.Name ∧
      w.ObjectMeta.Namespace = fetched.ObjectMeta.Namespace ∧
      w.ObjectMeta.UID = fetched.ObjectMeta.UID ∧
      w.ObjectMeta.ResourceVersion = fetched.ObjectMeta.ResourceVersion ∧
      w.ObjectMeta.Generation = fetched.ObjectMeta.Generation ∧
      w.ObjectMeta.DeletionTimestamp = fetched.ObjectMeta.DeletionTimestamp ∧
      w.ObjectMeta.Labels = fetched.ObjectMeta.Labels ∧
      w.ObjectMeta.Annotations = fetched.ObjectMeta.Annotations ∧
      w.Spec = fetched.Spec ∧
      w.Status = fetched.Status := by
  rcases ReconcileWith_cases cleanup r req with ⟨e0, _, ho⟩ | ⟨a0, hg, _, _, ho⟩ |
    ⟨a0, _, ho⟩ | ⟨a0, e0, _, _, _, hc, ho⟩ | ⟨a0, hg, _, _, hc, ho⟩
  · rw [ho] at hmem; simp [updates] at hmem
  · rw [ho] at hmem ⊢
    simp only [updates, List.mem_singleton] at hmem
    subst hmem
    exact ⟨a0, _, _, hg, rfl, by simp, rfl, rfl, rfl, rfl, rfl, rfl, rfl, rfl, rfl, rfl,
      rfl, rfl⟩
  · rw [ho] at hmem; simp [updates] at hmem
  · rw [ho] at hmem; simp [updates] at hmem
  · rw [ho] at hmem ⊢
    simp only [updates, List.mem_singleton] at hmem
    subst hmem
    exact ⟨a0, _, _, hg, rfl, by simp, rfl, rfl, rfl, rfl, rfl, rfl, rfl, rfl, rfl, rfl,
      rfl, rfl⟩

theorem Reconcile_read_before_write_witness :
    ∃ (fetched : App) (fs : List String),
      (clientOf (deletingApp ["keep", myFinalizerName]) none).Get sampleReq.NamespacedName
        = Except.ok fetched ∧
      withFinalizers (deletingApp ["keep", myFinalizerName]) ["keep"]
        = withFinalizers fetched fs ∧
      (withFinalizers (deletingApp ["keep", myFinalizerName]) ["keep"]
        ).ObjectMeta.ResourceVersion = fetched.ObjectMeta.ResourceVersion :=
  have ⟨fetched, fs, _, h⟩ := Reconcile_read_before_write deleteExternalResources
    (clientOf (deletingApp ["keep", myFinalizerName]) none) sampleReq
    (withFinalizers (deletingApp ["keep", myFinalizerName]) ["keep"])
    (by simp [ReconcileWith, clientOf, IsZero, Time.IsZero, deletingApp, liveApp,
      sampleMeta, containsString, deleteExternalResources, removeString, removeStringLoop,
      updates, withFinalizers, myFinalizerName])
  ⟨fetched, fs, h.1, h.2.2.2.1, h.2.2.2.2.2.2.2.2.1⟩

/-! ## The cleanup hook -/

/-- C11: the cleanup hook deleteExternalResources is a no-op: on every object
it returns nil and leaves the object as it was, so calling it again on the
object it left gives the same object and the same nil result, and any number
of calls (one or more) in a row gives what one call gives. -/
theorem deleteExternalResources_idempotent (app : App) (n : Nat) :
    deleteExternalResources app = none ∧
    deleteExternalResourcesStep app = (app, none) ∧
    deleteExternalResourcesStep (deleteExternalResourcesStep app).1 =
      deleteExternalResourcesStep app ∧
    cleanupTimes 1 app = deleteExternalResourcesStep app ∧
    cleanupTimes (n + 1) app = cleanupTimes 1 app := by
  have hstep : ∀ a : App, deleteExternalResourcesStep a = (a, none) := fun _ => rfl
  have hall : ∀ m : Nat, cleanupTimes m app = (app, none) := by
    intro m
    induction m with
    | zero => rfl
    | succ m ih => simp [cleanupTimes, hstep, ih]
  refine ⟨rfl, rfl, rfl, ?_, ?_⟩
  · rw [hall 1, hstep]
  · rw [hall (n + 1), hall 1]

/-! ## The finalizer list as a set, and the finalizers of others -/

/-- C13: when the finalizers of the fetched object hold no string twice, the
finalizers of every object that Reconcile hands to Update (the one with the
token appended, the one with the token removed) hold no string twice. -/
theorem Reconcile_keeps_finalizers_nodup (cleanup : App → Option Error)
    (r : AppReconciler) (req : Request) (fetched w : App)
    (hget : r.Get req.NamespacedName = Except.ok fetched)
    (hnodup : fetched.ObjectMeta.Finalizers.Nodup)
    (hmem : w ∈ updates (ReconcileWith cleanup r req).trace) :
    w.ObjectMeta.Finalizers.Nodup := by
  rcases ReconcileWith_cases cleanup r req with ⟨e0, hg, ho⟩ | ⟨a0, hg, _, hm, ho⟩ |
    ⟨a0, hg, ho⟩ | ⟨a0, e0, hg, _, _, hc, ho⟩ | ⟨a0, hg, _, _, hc, ho⟩
  · rw [ho] at hmem; simp [updates] at hmem
  · rw [ho] at hmem
    simp only [updates, List.mem_singleton] at hmem
    subst hmem
    rw [hget] at hg
    cases hg
    simp only [withFinalizers]
    exact List.Nodup.append hnodup (List.nodup_singleton _) (by simpa using hm)
  · rw [ho] at hmem; simp [updates] at hmem
  · rw [ho] at hmem; simp [updates] at hmem
  · rw [ho] at hmem
    simp only [updates, List.mem_singleton] at hmem
    subst hmem
    rw [hget] at hg
    cases hg
    simp only [withFinalizers]
    exact List.Nodup.filter _ hnodup

theorem Reconcile_keeps_finalizers_nodup_witness :
    (withFinalizers (liveApp ["keep", "other"])
      ["keep", "other", myFinalizerName]).ObjectMeta.Finalizers.Nodup :=
  Reconcile_keeps_finalizers_nodup deleteExternalResources
    (clientOf (liveApp ["keep", "other"]) none) sampleReq (liveApp ["keep", "other"])
    (withFinalizers (liveApp ["keep", "other"]) ["keep", "other", myFinalizerName])
    rfl (by simp [liveApp, sampleMeta])
    (by simp [ReconcileWith, clientOf, IsZero, liveApp, sampleMeta, containsString,
      updates, withFinalizers, myFinalizerName])

/-- C14: Reconcile leaves the finalizers of others alone.  For every object it
hands to Update, the finalizers other than the token are those of the fetched
object in the same order (the two lists agree once the token is filtered out),
and every string other than the token occurs in the written list as often as
in the fetched one.  And removeString is the filter that keeps the strings not
equal to its argument. -/
theorem Reconcile_preserves_other_finalizers (cleanup : App → Option Error)
    (r : AppReconciler) (req : Request) (fetched w : App)
    (hget : r.Get req.NamespacedName = Except.ok fetched)
    (hmem : w ∈ updates (ReconcileWith cleanup r req).trace) :
    w.ObjectMeta.Finalizers.filter (fun x => decide (x ≠ myFinalizerName)) =
      fetched.ObjectMeta.Finalizers.filter (fun x => decide (x ≠ myFinalizerName)) ∧
    (∀ t : String, t ≠ myFinalizerName →
      w.ObjectMeta.Finalizers.count t = fetched.ObjectMeta.Finalizers.count t) ∧
    (∀ (l : List String) (s : String),
      removeString l s = l.filter (fun x => decide (x ≠ s))) := by
  refine ⟨?_, ?_, removeString_eq_filter⟩
  · rcases ReconcileWith_cases cleanup r req with ⟨e0, hg, ho⟩ | ⟨a0, hg, _, hm, ho⟩ |
      ⟨a0, hg, ho⟩ | ⟨a0, e0, hg, _, _, hc, ho⟩ | ⟨a0, hg, _, _, hc, ho⟩
    · rw [ho] at hmem; simp [updates] at hmem
    · rw [ho] at hmem
      simp only [updates, List.mem_singleton] at hmem
      subst hmem
      rw [hget] at hg
      cases hg
      simp [withFinalizers, List.filter_append]
    · rw [ho] at hmem; simp [updates] at hmem
    · rw [ho] at hmem; simp [updates] at hmem
    · rw [ho] at hmem
      simp only [updates, List.mem_singleton] at hmem
      subst hmem
      rw [hget] at hg
      cases hg
      simp [withFinalizers, List.filter_filter]
  · intro t ht
    rcases ReconcileWith_cases cleanup r req with ⟨e0, hg, ho⟩ | ⟨a0, hg, _, hm, ho⟩ |
      ⟨a0, hg, ho⟩ | ⟨a0, e0, hg, _, _, hc, ho⟩ | ⟨a0, hg, _, _, hc, ho⟩
    · rw [ho] at hmem; simp [updates] at hmem
    · rw [ho] at hmem
      simp only [updates, List.mem_singleton] at hmem
      subst hmem
      rw [hget] at hg
      cases hg
      have hne : ¬ myFinalizerName = t := fun e => ht e.symm
      simp [withFinalizers, List.count_append, List.count_singleton, hne]
    · rw [ho] at hmem; simp [updates] at hmem
    · rw [ho] at hmem; simp [updates] at hmem
    · rw [ho] at hmem
      simp only [updates, List.mem_singleton] at hmem
      subst hmem
      rw [hget] at hg
      cases hg
      simp only [withFinalizers]
      exact List.count_filter (by simpa using ht)

theorem Reconcile_preserves_other_finalizers_witness :
    (withFinalizers (deletingApp ["b", myFinalizerName, "a", "b"])
        ["b", "a", "b"]).ObjectMeta.Finalizers.count "b" =
      (deletingApp ["b", myFinalizerName, "a", "b"]).ObjectMeta.Finalizers.count "b" :=
  (Reconcile_preserves_other_finalizers deleteExternalResources
    (clientOf (deletingApp ["b", myFinalizerName, "a", "b"]) none) sampleReq
    (deletingApp ["b", myFinalizerName, "a", "b"])
    (withFinalizers (deletingApp ["b", myFinalizerName, "a", "b"]) ["b", "a", "b"])
    rfl
    (by simp [ReconcileWith, clientOf, IsZero, Time.IsZero, deletingApp, liveApp,
      sampleMeta, containsString, deleteExternalResources, removeString, removeStringLoop,
      updates, withFinalizers, myFinalizerName])).2.1 "b" (by simp [myFinalizerName])

/-! ## The TLS options of `main` -/

/-- C15: for every value of the enable-http2 flag, the TLS option list that
main hands to the webhook server and to the metrics server is the same list,
tlsOpts; it contains disableHTTP2 exactly when the flag is false, which is the
default: it is the one-element list of disableHTTP2 then, and the empty list
when the flag is true.  Applied to any TLS configuration, disableHTTP2 sets
NextProtos to the single protocol http/1.1. -/
theorem main_tlsOpts_disable_http2 (f : Flags) (c : TLSConfig) :
    (webhookOptions f).TLSOpts = tlsOpts f.enableHTTP2 ∧
    (metricsOptions f).TLSOpts = tlsOpts f.enableHTTP2 ∧
    (disableHTTP2 ∈ (webhookOptions f).TLSOpts ↔ f.enableHTTP2 = false) ∧
    (disableHTTP2 ∈ (metricsOptions f).TLSOpts ↔ f.enableHTTP2 = false) ∧
    tlsOpts f.enableHTTP2 = (if f.enableHTTP2 = true then [] else [disableHTTP2]) ∧
    tlsOpts false = [disableHTTP2] ∧
    tlsOpts true = [] ∧
    defaultFlags.enableHTTP2 = false ∧
    (disableHTTP2 c).NextProtos = ["http/1.1"] := by
  refine ⟨rfl, rfl, ?_, ?_, ?_, rfl, rfl, rfl, rfl⟩
  · cases h : f.enableHTTP2 <;> simp [webhookOptions, tlsOpts, h]
  · cases h : f.enableHTTP2 <;> simp [metricsOptions, tlsOpts, h]
  · cases h : f.enableHTTP2 <;> simp [tlsOpts]

/-! ## The work queue and the worker pool -/

/-- C12: on the work queue and worker pool modelled from sections 4.1, 4.2 and
5 of the spec, with the two workers that SetupWithManager configures: after
every interleaving of add, get, done and shutdown steps from the empty queue,
every identity is in flight at one worker at most (two workers that have it in
flight are the same worker) and is pending at most once (ready or marked
dirty).  Any number of add calls for one identity collapse: one or more calls
in a row leave the queue as a single call does, and they start no
reconciliation. -/
theorem workQueue_one_in_flight_one_pending (ops : List QueueOp) (id : NamespacedName)
    (n : Nat) :
    MaxConcurrentReconciles = 2 ∧
    inFlightCount (runOps ops emptyQueue) id ≤ 1 ∧
    pending (runOps ops emptyQueue) id ≤ 1 ∧
    (∀ w1 w2 : Fin MaxConcurrentReconciles,
      (runOps ops emptyQueue).inFlight w1 = some id →
      (runOps ops emptyQueue).inFlight w2 = some id → w1 = w2) ∧
    runOps (ops ++ List.replicate (n + 1) (QueueOp.add id)) emptyQueue =
      runOps (ops ++ [QueueOp.add id]) emptyQueue ∧
    (runOps (ops ++ List.replicate n (QueueOp.add id)) emptyQueue).inFlight =
      (runOps ops emptyQueue).inFlight := by
  have hinv : (runOps ops emptyQueue).Inv := runOps_inv ops emptyQueue emptyQueue_inv
  refine ⟨rfl, inFlightCount_le_one _ hinv id, pending_le_one _ hinv id, ?_, ?_, ?_⟩
  · intro w1 w2 e1 e2
    exact hinv.1 w1 w2 id e1 e2
  · rw [runOps_append, runOps_append, runOps_replicate_add]
    rfl
  · rw [runOps_append, runOps_replicate_add_inFlight]

theorem workQueue_one_in_flight_one_pending_witness :
    (runOps [QueueOp.add sampleKey, QueueOp.get 0, QueueOp.add sampleKey,
        QueueOp.add sampleKey, QueueOp.get 1] emptyQueue).inFlight 0 = some sampleKey ∧
    (runOps [QueueOp.add sampleKey, QueueOp.get 0, QueueOp.add sampleKey,
        QueueOp.add sampleKey, QueueOp.get 1] emptyQueue).inFlight 1 ≠ some sampleKey ∧
    (runOps [QueueOp.add sampleKey, QueueOp.get 0, QueueOp.add sampleKey,
        QueueOp.add sampleKey, QueueOp.get 1] emptyQueue).dirty = [sampleKey] ∧
    pending (runOps [QueueOp.add sampleKey, QueueOp.get 0, QueueOp.add sampleKey,
        QueueOp.add sampleKey, QueueOp.get 1] emptyQueue) sampleKey ≤ 1 :=
  have h := workQueue_one_in_flight_one_pending
    [QueueOp.add sampleKey, QueueOp.get 0, QueueOp.add sampleKey, QueueOp.add sampleKey,
      QueueOp.get 1] sampleKey 0
  ⟨by decide,
   fun h1 => absurd (h.2.2.2.1 0 1 (by decide) h1) (by decide),
   by decide,
   h.2.2.1⟩

end KubebuilderDemo1
